import Mathlib

/-!
Verification of the partition/merge/dedup subsystem of the company-registry
scripts (`direct-sales/`): the letter-bucketing function, the Partitioner
(`split_companies_by_organisation_form_and_letter.py`), the Merger
(`merge_new_brreg_dump_into_existing.py`) and the Reporter
(`show_company_database_statistics.py`).

The scripts are embedded shallowly:

* A pandas dataframe is a `DataFrame`: a list of column names plus a list of
  rows.  A row carries the registry number (`organisasjonsnummer`, already
  coerced to a string, as the scripts do with `astype(str)`), the
  organisation-form code and name (both `Option String`, `none` modelling a
  NaN cell that `fillna` replaces with "UNKNOWN"), and the value of the
  `konkurs` cell (`Option Bool`, `none` modelling NaN; the column itself may
  be absent, which is recorded in `DataFrame.cols`).
* The shard tree `companies/<FORM>/<KEY>.csv` is a list of `Shard` records;
  `readable` models whether `pd.read_csv` succeeds on the file and
  `hasOrgnr` whether the file has an `organisasjonsnummer` column.  The
  list order models directory-enumeration order and carries no meaning.
* Python's `str.upper` (the full Unicode uppercase mapping) is embedded on
  the character fragment this development needs: ASCII, plus the only
  Unicode characters whose full uppercase lands inside the ASCII range
  'A'..'Z' (dotless i, long s, sharp s and the Latin f- and st-ligatures).
  Every other character maps to a string that is entirely outside the range
  'A'..'Z', so modelling it as the identity does not change the result of
  the range test `'A' <= first_char <= 'Z'`.
* `sys.exit(1)` after a missing-column message is an `Except.error` carrying
  the printed list of missing columns.  Prints are otherwise not modelled.
* Python's `sorted` is modelled by an insertion sort; for a total order the
  sorted output is unique, so this agrees with timsort.  The stable
  descending sort of the Reporter (`sorted(..., reverse=True)`) is modelled
  by a stable insertion sort with the reversed comparison.
-/

/-- Lexicographic code-point comparison of Python strings (`<=` on `str`),
as lists of characters. -/
def pyStrLe : List Char → List Char → Bool
  | [], _ => true
  | _ :: _, [] => false
  | a :: as, b :: bs =>
    if a.val < b.val then true
    else if b.val < a.val then false
    else pyStrLe as bs

/-- Python `str.upper` on a single character, returning the (possibly
multi-character) full uppercase mapping.  Exact on ASCII and on every
character whose uppercase enters the range 'A'..'Z' (`'ı'`, `'ſ'`, `'ß'`
and the Latin ligatures); identity elsewhere, which is indistinguishable
from the true mapping under the range test used by the bucketing function,
since all remaining uppercase images lie wholly outside 'A'..'Z'. -/
def pyUpperChar (c : Char) : List Char :=
  if 'a' ≤ c ∧ c ≤ 'z' then [Char.ofNat (c.toNat - 32)]
  else if c = 'ß' then ['S', 'S']
  else if c = 'ı' then ['I']
  else if c = 'ſ' then ['S']
  else if c = 'ﬀ' then ['F', 'F']
  else if c = 'ﬁ' then ['F', 'I']
  else if c = 'ﬂ' then ['F', 'L']
  else if c = 'ﬃ' then ['F', 'F', 'I']
  else if c = 'ﬄ' then ['F', 'F', 'L']
  else if c = 'ﬅ' then ['S', 'T']
  else if c = 'ﬆ' then ['S', 'T']
  else [c]

/-- A Python value passed as a company name: a string, or any non-string
value (for instance the float NaN that pandas yields for a missing cell). -/
inductive PyVal where
  | str (s : String)
  | nonStr
deriving DecidableEq

/-- `get_letter_bucket_for_company_name` (identical in
`split_companies_by_organisation_form_and_letter.py` lines 33-54 and
`merge_new_brreg_dump_into_existing.py` lines 36-52):
`if not name or not isinstance(name, str): return "OTHER"`;
`first_char = name[0].upper()`;
`return first_char if 'A' <= first_char <= 'Z' else "OTHER"`.
Non-strings are caught by the `isinstance` test (falsy non-strings by
`not name`); the empty string is falsy. -/
def get_letter_bucket_for_company_name : PyVal → String
  | PyVal.nonStr => "OTHER"
  | PyVal.str s =>
    match s.data with
    | [] => "OTHER"
    | c :: _ =>
      let firstChar := pyUpperChar c
      if pyStrLe ['A'] firstChar && pyStrLe firstChar ['Z'] then
        String.mk firstChar
      else
        "OTHER"

/-! ## Data model: rows, dataframes, the shard tree -/

/-- A raw row of a dump CSV as loaded by `pd.read_csv`.  `orgnr` is the
`organisasjonsnummer` cell already coerced to a string (the scripts apply
`astype(str)`); `form` and `navn` are `none` for NaN cells (replaced by
`fillna("UNKNOWN")`); `konkurs` is the value of the `konkurs` cell when
that column exists (`none` for NaN, which the filter `!= True` keeps). -/
structure RawRow where
  orgnr : String
  form : Option String
  navn : Option String
  konkurs : Option Bool
deriving DecidableEq

/-- A row after the cleaning steps (`fillna("UNKNOWN")` on the
organisation-form and name columns, registry number as string). -/
structure Row where
  orgnr : String
  form : String
  navn : String
  konkurs : Option Bool
deriving DecidableEq

/-- The cleaning applied by both scripts:
`df["organisasjonsform.kode"].fillna("UNKNOWN")`,
`df["navn"].fillna("UNKNOWN")` (and, in the Merger,
`df["organisasjonsnummer"].astype(str)`, already reflected in the type of
`orgnr`). -/
def cleanRow (r : RawRow) : Row :=
  { orgnr := r.orgnr
    form := r.form.getD "UNKNOWN"
    navn := r.navn.getD "UNKNOWN"
    konkurs := r.konkurs }

/-- A loaded CSV table: its column names and its rows. -/
structure DataFrame where
  cols : List String
  rows : List RawRow
deriving DecidableEq

/-- One shard file `companies/<form>/<key>.csv`.  `readable` models whether
`pd.read_csv` succeeds on the file, `hasOrgnr` whether
`"organisasjonsnummer" in df.columns`. -/
structure Shard where
  form : String
  key : String
  readable : Bool
  hasOrgnr : Bool
  rows : List Row
deriving DecidableEq

/-- The registry numbers of the rows of a shard file. -/
def shardNums (s : Shard) : List String :=
  s.rows.map Row.orgnr

/-- The (organisation-form, shard-key) names of the files of a tree. -/
def treeKeys (t : List Shard) : List (String × String) :=
  t.map (fun s => (s.form, s.key))

/-- Whether a shard file is the one named `<f>/<k>.csv`. -/
def shardAt (f k : String) (s : Shard) : Bool :=
  s.form == f && s.key == k

/-- The file of a tree at a given (organisation-form, shard-key), if any. -/
def findShard (t : List Shard) (f k : String) : Option Shard :=
  t.find? (shardAt f k)

/-- The bucket of a cleaned row's name (`get_letter_bucket_for_company_name
(company_row["navn"])`; after `fillna` the name is a string). -/
def bucketOf (r : Row) : String :=
  get_letter_bucket_for_company_name (PyVal.str r.navn)

/-- A tree as the Partitioner and the Merger themselves produce it: one file
per (organisation-form, shard-key), every file a readable CSV bearing the
`organisasjonsnummer` column. -/
def TreeWF (t : List Shard) : Prop :=
  (treeKeys t).Nodup ∧ ∀ s ∈ t, s.readable = true ∧ s.hasOrgnr = true

/-- Every registry number lies in at most one shard file of the tree (the
global-uniqueness invariant of the spec). -/
def atMostOneShard (t : List Shard) : Prop :=
  ∀ n : String, t.countP (fun s => (shardNums s).contains n) ≤ 1

/-! ## Generic list helpers used by the scripts' grouping and sorting -/

/-- First-occurrence deduplication (the order in which a Python dict built
by insertion, or `Series.unique()`, enumerates its keys). -/
def firstDedupAux {α : Type} [DecidableEq α] (seen : List α) : List α → List α
  | [] => []
  | a :: as =>
    if a ∈ seen then firstDedupAux seen as
    else a :: firstDedupAux (a :: seen) as

/-- First-occurrence deduplication of a list. -/
def firstDedup {α : Type} [DecidableEq α] (l : List α) : List α :=
  firstDedupAux [] l

/-- Stable insertion of an element into a list, placing it before the first
element it relates to by `le`. -/
def insertOrdered {α : Type} (le : α → α → Bool) (a : α) : List α → List α
  | [] => [a]
  | b :: bs => if le a b then a :: b :: bs else b :: insertOrdered le a bs

/-- Stable insertion sort.  For a total order the sorted output is unique,
so this agrees with Python's `sorted`; with a non-strict comparison it is
stable, matching `sorted(..., reverse=True)` when `le` is the reversed
comparison. -/
def sortOrdered {α : Type} (le : α → α → Bool) : List α → List α
  | [] => []
  | a :: as => insertOrdered le a (sortOrdered le as)

/-- Python `sorted` on strings (code-point lexicographic order). -/
def sortStrings (l : List String) : List String :=
  sortOrdered (fun a b => pyStrLe a.data b.data) l


/-! ## The Merger (`merge_new_brreg_dump_into_existing.py`) -/

/-- Required columns of the Merger's input dump (line 112). -/
def mergeRequiredColumns : List String :=
  ["organisasjonsform.kode", "navn", "organisasjonsnummer"]

/-- Lines 55-81, `load_all_existing_organisation_numbers`: union the
`organisasjonsnummer` column over every shard file of the tree, skipping a
file whose read raises (`except ... print warning`) and a file without that
column.  The Python set is modelled by a list with membership reads. -/
def load_all_existing_organisation_numbers (t : List Shard) : List String :=
  t.foldl
    (fun acc s => if s.readable && s.hasOrgnr then acc ++ shardNums s else acc)
    []

/-- Lines 119-128: clean the dump and, when a `konkurs` column exists, drop
the rows with `konkurs == True` (the filter `df["konkurs"] != True` keeps
NaN and False). -/
def survivingRows (d : DataFrame) : List Row :=
  let cleaned := d.rows.map cleanRow
  if d.cols.contains "konkurs" then
    cleaned.filter (fun r => r.konkurs != some true)
  else cleaned

/-- Lines 130-138: the candidate set, i.e. the surviving dump rows whose
registry number is not already present anywhere in the existing tree. -/
def candidates (d : DataFrame) (t : List Shard) : List Row :=
  let existing := load_all_existing_organisation_numbers t
  (survivingRows d).filter (fun r => !(existing.contains r.orgnr))

/-- The candidate rows destined for the file `<f>/<k>.csv`, in dump order
(lines 149-166: the rows of organisation form `f` whose name buckets to
`k`, collected in `iterrows` order). -/
def candidatesFor (cands : List Row) (f k : String) : List Row :=
  cands.filter (fun r => r.form == f && bucketOf r == k)

/-- The (form, key) pairs the Merger writes, in processing order: the
organisation forms sorted (`sorted(...unique())`, line 149), and within a
form the letter buckets in first-occurrence order (Python dict insertion
order, lines 159-169). -/
def touchedKeys (cands : List Row) : List (String × String) :=
  (sortStrings (firstDedup (cands.map Row.form))).flatMap fun f =>
    (firstDedup ((cands.filter (fun r => r.form == f)).map bucketOf)).map
      fun k => (f, k)

/-- Lines 169-183: write one group into `<f>/<k>.csv`.  If the file exists
it is read back and rewritten as its rows followed by the new rows
(`pd.concat([existing, new])`); otherwise it is created with the new rows.
A written file is a readable CSV with the `organisasjonsnummer` column. -/
def writeShard (t : List Shard) (f k : String) (newRows : List Row) :
    List Shard :=
  if t.any (shardAt f k) then
    t.map fun s =>
      if shardAt f k s then
        { s with rows := s.rows ++ newRows, readable := true, hasOrgnr := true }
      else s
  else t ++ [{ form := f, key := k, readable := true, hasOrgnr := true,
               rows := newRows }]

/-- Lines 149-186: the write loop over all groups. -/
def mergeWrites (t : List Shard) (cands : List Row) : List Shard :=
  (touchedKeys cands).foldl
    (fun acc fk => writeShard acc fk.1 fk.2 (candidatesFor cands fk.1 fk.2))
    t

/-- Outcome of a Merger run: the tree afterwards, whether the
"No new companies to merge!" branch was taken (line 142-144), and the
total of the per-group row counts it reports (line 185). -/
structure MergeResult where
  tree : List Shard
  nothingToMerge : Bool
  addedCount : Nat
deriving DecidableEq

/-- `merge_new_companies_into_existing_structure` (lines 84-189), from the
column check on:  abort (`sys.exit(1)`) with the list of missing required
columns if any; otherwise compute the candidate set; if it is empty return
leaving the tree untouched; otherwise run the write loop.  The existence
checks on the input file and on `companies/` (lines 97-105) concern the
environment, not the data, and are outside the model. -/
def merge_new_companies_into_existing_structure (d : DataFrame)
    (t : List Shard) : Except (List String) MergeResult :=
  let missing := mergeRequiredColumns.filter (fun c => !(d.cols.contains c))
  if missing.isEmpty then
    let cands := candidates d t
    if cands.isEmpty then
      Except.ok { tree := t, nothingToMerge := true, addedCount := 0 }
    else
      Except.ok
        { tree := mergeWrites t cands
          nothingToMerge := false
          addedCount :=
            ((touchedKeys cands).map
              (fun fk => (candidatesFor cands fk.1 fk.2).length)).sum }
  else Except.error missing

/-! ## The Partitioner (`split_companies_by_organisation_form_and_letter.py`) -/

/-- Required columns of the Partitioner's input dump (line 76). -/
def splitRequiredColumns : List String :=
  ["organisasjonsform.kode", "navn"]

/-- Line 87: the hard-coded organisation-form allow-list. -/
def allowedOrganisationForms : List String := ["ENK", "AS", "FLI"]

/-- Lines 103-112: the columns every shard file keeps (the
organisation-form code is encoded in the directory name instead). -/
def baseOutputColumns : List String :=
  ["organisasjonsnummer", "navn", "hjemmeside", "epostadresse", "telefon",
   "mobil", "erIKonsern", "antallAnsatte"]

/-- Line 115: the extra column kept for FLI shards only. -/
def fliExtraColumns : List String := ["registrertIForetaksregisteret"]

/-- One output shard file of the Partitioner: its location, the columns it
was written with (`letter_dataframe[available_columns]`, line 159) and its
rows (recorded as full records; the column projection is captured by
`cols`). -/
structure OutShard where
  form : String
  key : String
  cols : List String
  rows : List Row
deriving DecidableEq

/-- Lines 82-100 of the Partitioner: clean the dump, restrict to the
allow-list, and drop `konkurs == True` rows when that column exists. -/
def splitSurvivors (d : DataFrame) : List Row :=
  let cleaned := d.rows.map cleanRow
  let allowed :=
    cleaned.filter (fun r => allowedOrganisationForms.contains r.form)
  if d.cols.contains "konkurs" then
    allowed.filter (fun r => r.konkurs != some true)
  else allowed

/-- Lines 146-153: the columns kept for one organisation form, restricted
to those actually present in the dump (`available_columns`). -/
def availableColumnsFor (d : DataFrame) (f : String) : List String :=
  (if f = "FLI" then baseOutputColumns ++ fliExtraColumns
   else baseOutputColumns).filter fun c => d.cols.contains c

/-- One file the Partitioner writes (lines 155-161): the surviving rows of
organisation form `f` whose name buckets to `k`, projected to the columns
kept for `f`. -/
def mkOutShard (d : DataFrame) (f k : String) : OutShard :=
  { form := f, key := k, cols := availableColumnsFor d f,
    rows := ((splitSurvivors d).filter fun r => r.form == f).filter
      fun r => bucketOf r == k }

/-- Lines 82-164 of the Partitioner, after the column check: for each
organisation form among the survivors (sorted, line 119) and each letter
bucket within it (sorted, line 156), write the group as a fresh file. -/
def splitterShards (d : DataFrame) : List OutShard :=
  (sortStrings (firstDedup ((splitSurvivors d).map Row.form))).flatMap fun f =>
    (sortStrings (firstDedup
        (((splitSurvivors d).filter fun r => r.form == f).map bucketOf))).map
      (mkOutShard d f)

/-- `split_brreg_dump_into_subdivided_csvs` (lines 57-168) from the column
check on: abort with the list of missing required columns if any, else
write the partition. -/
def split_brreg_dump_into_subdivided_csvs (d : DataFrame) :
    Except (List String) (List OutShard) :=
  let missing := splitRequiredColumns.filter (fun c => !(d.cols.contains c))
  if missing.isEmpty then Except.ok (splitterShards d)
  else Except.error missing

/-! ## The Reporter (`show_company_database_statistics.py`) -/

/-- The displayed percentage of a bucket, in tenths of a percent: the
Python `f"{(count / total) * 100:5.1f}"` shows the quotient rounded to one
decimal, i.e. round(count / total * 1000) tenths, computed here in integer
arithmetic as floor(count / total * 1000 + 1/2).  (Python's float
formatting rounds ties to even; no value arising in the claims falls on a
tie, where this model rounds up.) -/
def pctTenths (count total : Nat) : Nat :=
  (2 * (count * 1000) + total) / (2 * total)

/-- What the Reporter prints for one organisation form: the per-form total,
the number of files listed (`len(csv_files)`, line 109), the number
successfully read (the increments of `grand_total_files`, line 101), and
the top-5 buckets by count with their displayed percentages. -/
structure FormStats where
  total : Nat
  listedFiles : Nat
  countedFiles : Nat
  top : List (String × Nat × Nat)
deriving DecidableEq

/-- Lines 88-120 of the Reporter, for one organisation-form directory:
count the rows of each readable file (an unreadable file is warned about
and skipped, lines 103-104), sum to the form total, sort the buckets by
count descending (stable, line 112-116), keep the first five, and print
each with its percentage of the form total.  The division `count / total`
(line 119) is unguarded: if the loop over the top buckets runs with a zero
total it raises `ZeroDivisionError`, modelled as `none`. -/
def statisticsForForm (files : List Shard) : Option FormStats :=
  let counted :=
    (files.filter (fun s => s.readable)).map fun s => (s.key, s.rows.length)
  let total := (counted.map (fun p => p.2)).sum
  let top5 := (sortOrdered (fun a b => b.2 ≤ a.2) counted).take 5
  if total = 0 ∧ top5 ≠ [] then none
  else
    some { total := total
           listedFiles := files.length
           countedFiles := counted.length
           top := top5.map fun p => (p.1, p.2, pctTenths p.2 total) }

/-- `display_company_database_statistics` (lines 33-125), over the
organisation-form directories it iterates: a directory with no CSV files
is skipped (line 85-86); otherwise its statistics are accumulated into
`grand_total_companies` and `grand_total_files`.  An uncaught
`ZeroDivisionError` aborts the whole run (`none`). -/
def display_company_database_statistics
    (dirs : List (String × List Shard)) : Option (Nat × Nat) :=
  dirs.foldlM
    (fun acc fd =>
      if fd.2.isEmpty then some acc
      else
        (statisticsForForm fd.2).map fun st =>
          (acc.1 + st.total, acc.2 + st.countedFiles))
    (0, 0)

/-! ## Helper lemmas: deduplication and sorting -/

theorem mem_firstDedupAux {α : Type} [DecidableEq α] (b : α) :
    ∀ (l : List α) (seen : List α),
      b ∈ firstDedupAux seen l ↔ b ∈ l ∧ b ∉ seen := by
  intro l
  induction l with
  | nil => intro seen; simp [firstDedupAux]
  | cons a as ih =>
    intro seen
    by_cases h : a ∈ seen
    · simp only [firstDedupAux, if_pos h, ih seen, List.mem_cons]
      constructor
      · rintro ⟨hb, hbs⟩
        exact ⟨Or.inr hb, hbs⟩
      · rintro ⟨rfl | hb, hbs⟩
        · exact absurd h hbs
        · exact ⟨hb, hbs⟩
    · simp only [firstDedupAux, if_neg h, List.mem_cons, ih (a :: seen)]
      constructor
      · rintro (rfl | ⟨hb, hbs⟩)
        · exact ⟨Or.inl rfl, h⟩
        · rcases not_or.mp hbs with ⟨_, hs⟩
          exact ⟨Or.inr hb, hs⟩
      · rintro ⟨rfl | hb, hbs⟩
        · exact Or.inl rfl
        · by_cases hba : b = a
          · exact Or.inl hba
          · exact Or.inr ⟨hb, not_or.mpr ⟨hba, hbs⟩⟩

theorem nodup_firstDedupAux {α : Type} [DecidableEq α] :
    ∀ (l : List α) (seen : List α), (firstDedupAux seen l).Nodup := by
  intro l
  induction l with
  | nil => intro seen; simp [firstDedupAux]
  | cons a as ih =>
    intro seen
    by_cases h : a ∈ seen
    · simpa [firstDedupAux, if_pos h] using ih seen
    · simp only [firstDedupAux, if_neg h, List.nodup_cons]
      refine ⟨fun hc => ?_, ih (a :: seen)⟩
      exact ((mem_firstDedupAux a as (a :: seen)).mp hc).2 (List.mem_cons_self a seen)

theorem mem_firstDedup {α : Type} [DecidableEq α] {b : α} {l : List α} :
    b ∈ firstDedup l ↔ b ∈ l := by
  simp [firstDedup, mem_firstDedupAux]

theorem nodup_firstDedup {α : Type} [DecidableEq α] (l : List α) :
    (firstDedup l).Nodup :=
  nodup_firstDedupAux l []

theorem perm_insertOrdered {α : Type} (le : α → α → Bool) (a : α) :
    ∀ l : List α, List.Perm (insertOrdered le a l) (a :: l) := by
  intro l
  induction l with
  | nil => simp [insertOrdered]
  | cons b bs ih =>
    by_cases h : le a b
    · simp [insertOrdered, h]
    · simp only [insertOrdered, if_neg h]
      exact (ih.cons b).trans (List.Perm.swap a b bs)

theorem perm_sortOrdered {α : Type} (le : α → α → Bool) :
    ∀ l : List α, List.Perm (sortOrdered le l) l := by
  intro l
  induction l with
  | nil => simp [sortOrdered]
  | cons a as ih =>
    exact (perm_insertOrdered le a (sortOrdered le as)).trans (ih.cons a)

theorem mem_sortOrdered {α : Type} {le : α → α → Bool} {a : α} {l : List α} :
    a ∈ sortOrdered le l ↔ a ∈ l :=
  (perm_sortOrdered le l).mem_iff

theorem nodup_sortOrdered {α : Type} {le : α → α → Bool} {l : List α}
    (h : l.Nodup) : (sortOrdered le l).Nodup :=
  (perm_sortOrdered le l).nodup_iff.mpr h

theorem mem_sortStrings {a : String} {l : List String} :
    a ∈ sortStrings l ↔ a ∈ l :=
  mem_sortOrdered

theorem nodup_sortStrings {l : List String} (h : l.Nodup) :
    (sortStrings l).Nodup :=
  nodup_sortOrdered h

/-! ## Helper lemmas: candidate groups and touched keys -/

theorem mem_candidatesFor {cands : List Row} {f k : String} {r : Row} :
    r ∈ candidatesFor cands f k ↔ r ∈ cands ∧ r.form = f ∧ bucketOf r = k := by
  simp [candidatesFor, List.mem_filter, and_assoc]

theorem mem_touchedKeys {cands : List Row} {f k : String} :
    (f, k) ∈ touchedKeys cands ↔
      ∃ r ∈ cands, r.form = f ∧ bucketOf r = k := by
  simp only [touchedKeys, List.mem_flatMap, List.mem_map, Prod.mk.injEq]
  constructor
  · rintro ⟨f', hf', k', hk', rfl, rfl⟩
    rcases (mem_firstDedup.mp hk') with hk'
    rcases List.mem_map.mp hk' with ⟨r, hr, rfl⟩
    rcases List.mem_filter.mp hr with ⟨hrc, hrf⟩
    exact ⟨r, hrc, beq_iff_eq.mp hrf, rfl⟩
  · rintro ⟨r, hr, rfl, rfl⟩
    refine ⟨r.form, ?_, bucketOf r, ?_, rfl, rfl⟩
    · exact mem_sortStrings.mpr (mem_firstDedup.mpr (List.mem_map_of_mem _ hr))
    · exact mem_firstDedup.mpr
        (List.mem_map_of_mem _ (List.mem_filter.mpr ⟨hr, beq_iff_eq.mpr rfl⟩))

theorem candidatesFor_eq_nil_of_not_touched {cands : List Row} {f k : String}
    (h : (f, k) ∉ touchedKeys cands) : candidatesFor cands f k = [] := by
  rcases hne : candidatesFor cands f k with _ | ⟨r, rs⟩
  · rfl
  · exfalso
    have hr : r ∈ candidatesFor cands f k := by rw [hne]; exact List.mem_cons_self r rs
    rcases mem_candidatesFor.mp hr with ⟨hc, hf, hk⟩
    exact h (mem_touchedKeys.mpr ⟨r, hc, hf, hk⟩)

theorem nodup_keyPairs {α β : Type} (inner : α → List β) :
    ∀ outer : List α, outer.Nodup → (∀ a ∈ outer, (inner a).Nodup) →
      (outer.flatMap fun a => (inner a).map fun b => (a, b)).Nodup := by
  intro outer
  induction outer with
  | nil => intro _ _; simp
  | cons a as ih =>
    intro ho hi
    rcases List.nodup_cons.mp ho with ⟨ha, has⟩
    simp only [List.flatMap_cons]
    rw [List.nodup_append]
    refine ⟨?_, ih has (fun x hx => hi x (List.mem_cons_of_mem _ hx)), ?_⟩
    · exact (hi a (List.mem_cons_self a as)).map
        (fun b₁ b₂ h => (Prod.ext_iff.mp h).2)
    · intro p hp hp'
      rcases List.mem_map.mp hp with ⟨b, _, rfl⟩
      rcases List.mem_flatMap.mp hp' with ⟨a', ha', hpa'⟩
      rcases List.mem_map.mp hpa' with ⟨b', _, hba⟩
      have : a' = a := (Prod.ext_iff.mp hba).1
      exact ha (this ▸ ha')

theorem nodup_touchedKeys (cands : List Row) : (touchedKeys cands).Nodup :=
  nodup_keyPairs _ _ (nodup_sortStrings (nodup_firstDedup _))
    (fun _ _ => nodup_firstDedup _)

/-! ## Helper lemmas: the existing-numbers scan -/

theorem mem_load_aux (n : String) :
    ∀ (t : List Shard) (acc : List String),
      (n ∈ t.foldl
        (fun acc s =>
          if s.readable && s.hasOrgnr then acc ++ shardNums s else acc) acc) ↔
      (n ∈ acc ∨
        ∃ s ∈ t, s.readable = true ∧ s.hasOrgnr = true ∧ n ∈ shardNums s) := by
  intro t
  induction t with
  | nil => intro acc; simp
  | cons s ts ih =>
    intro acc
    simp only [List.foldl_cons, ih, List.mem_cons]
    by_cases hc : s.readable && s.hasOrgnr
    · rcases Bool.and_eq_true .. |>.mp hc with ⟨h1, h2⟩
      rw [if_pos hc, List.mem_append]
      constructor
      · rintro ((h | h) | h)
        · exact Or.inl h
        · exact Or.inr ⟨s, Or.inl rfl, h1, h2, h⟩
        · rcases h with ⟨s', hs', hprop⟩
          exact Or.inr ⟨s', Or.inr hs', hprop⟩
      · rintro (h | ⟨s', hs', hr, ho, hn⟩)
        · exact Or.inl (Or.inl h)
        · rcases hs' with rfl | hs'
          · exact Or.inl (Or.inr hn)
          · exact Or.inr ⟨s', hs', hr, ho, hn⟩
    · rw [if_neg hc]
      constructor
      · rintro (h | ⟨s', hs', hprop⟩)
        · exact Or.inl h
        · exact Or.inr ⟨s', Or.inr hs', hprop⟩
      · rintro (h | ⟨s', hs', hr, ho, hn⟩)
        · exact Or.inl h
        · rcases hs' with rfl | hs'
          · exact absurd (by rw [hr, ho]; rfl) hc
          · exact Or.inr ⟨s', hs', hr, ho, hn⟩

theorem mem_load {n : String} {t : List Shard} :
    n ∈ load_all_existing_organisation_numbers t ↔
      ∃ s ∈ t, s.readable = true ∧ s.hasOrgnr = true ∧ n ∈ shardNums s := by
  simpa [load_all_existing_organisation_numbers] using mem_load_aux n t []

/-! ## Helper lemmas: the write loop -/

/-- The effect of the write loop on a file already in the tree: the group
for its key (empty when the key is untouched) is appended and the file is
freshly rewritten. -/
def updShard (cands : List Row) (ks : List (String × String)) (s : Shard) :
    Shard :=
  if (s.form, s.key) ∈ ks then
    { s with rows := s.rows ++ candidatesFor cands s.form s.key,
             readable := true, hasOrgnr := true }
  else s

/-- The fresh file the write loop creates for a touched key without an
existing file: exactly its group, written as a readable CSV with the
registry-number column. -/
def mkShard (cands : List Row) (fk : String × String) : Shard :=
  { form := fk.1, key := fk.2, readable := true, hasOrgnr := true,
    rows := candidatesFor cands fk.1 fk.2 }

/-- The files the write loop creates: one per touched key without an
existing file. -/
def newShards (t : List Shard) (cands : List Row)
    (ks : List (String × String)) : List Shard :=
  (ks.filter fun fk => !(t.any (shardAt fk.1 fk.2))).map (mkShard cands)

theorem shardAt_iff {f k : String} {s : Shard} :
    shardAt f k s = true ↔ s.form = f ∧ s.key = k := by
  simp [shardAt]

theorem any_shardAt_iff {t : List Shard} {f k : String} :
    t.any (shardAt f k) = true ↔ (f, k) ∈ treeKeys t := by
  simp only [List.any_eq_true, shardAt_iff, treeKeys, List.mem_map,
    Prod.ext_iff]

theorem updShard_form (cands : List Row) (ks : List (String × String))
    (s : Shard) : (updShard cands ks s).form = s.form := by
  by_cases h : (s.form, s.key) ∈ ks <;> simp [updShard, h]

theorem updShard_key (cands : List Row) (ks : List (String × String))
    (s : Shard) : (updShard cands ks s).key = s.key := by
  by_cases h : (s.form, s.key) ∈ ks <;> simp [updShard, h]

theorem updShard_rows (cands : List Row) (ks : List (String × String))
    (s : Shard) :
    (updShard cands ks s).rows
      = if (s.form, s.key) ∈ ks
        then s.rows ++ candidatesFor cands s.form s.key else s.rows := by
  by_cases h : (s.form, s.key) ∈ ks <;> simp [updShard, h]

theorem treeKeys_map_eq {t : List Shard} {g : Shard → Shard}
    (h : ∀ s, (g s).form = s.form ∧ (g s).key = s.key) :
    treeKeys (t.map g) = treeKeys t := by
  simp only [treeKeys, List.map_map]
  exact List.map_congr_left fun s _ => by
    simp [Function.comp, (h s).1, (h s).2]

theorem foldWrites_eq (cands : List Row) :
    ∀ (ks : List (String × String)) (t : List Shard),
      ks.Nodup → (treeKeys t).Nodup →
      ks.foldl
        (fun acc fk => writeShard acc fk.1 fk.2 (candidatesFor cands fk.1 fk.2))
        t
        = t.map (updShard cands ks) ++ newShards t cands ks := by
  intro ks
  induction ks with
  | nil =>
    intro t _ _
    have h2 : updShard cands [] = fun s => s :=
      funext fun s => by simp [updShard]
    simp [newShards, h2]
  | cons fk ks ih =>
    intro t hks ht
    rcases List.nodup_cons.mp hks with ⟨hfk, hks'⟩
    simp only [List.foldl_cons]
    by_cases hex : t.any (shardAt fk.1 fk.2) = true
    · -- the key already has a file: the write is a map over the tree
      have hw : writeShard t fk.1 fk.2 (candidatesFor cands fk.1 fk.2)
          = t.map fun s =>
              if shardAt fk.1 fk.2 s then
                { s with rows := s.rows ++ candidatesFor cands fk.1 fk.2,
                         readable := true, hasOrgnr := true }
              else s := by
        rw [writeShard, if_pos hex]
      have hpres : ∀ s : Shard,
          ((fun s =>
            if shardAt fk.1 fk.2 s then
              { s with rows := s.rows ++ candidatesFor cands fk.1 fk.2,
                       readable := true, hasOrgnr := true }
            else s) s).form = s.form ∧
          ((fun s =>
            if shardAt fk.1 fk.2 s then
              { s with rows := s.rows ++ candidatesFor cands fk.1 fk.2,
                       readable := true, hasOrgnr := true }
            else s) s).key = s.key := by
        intro s
        by_cases h : shardAt fk.1 fk.2 s <;> simp [h]
      rw [hw, ih _ hks' (by rw [treeKeys_map_eq hpres]; exact ht)]
      congr 1
      · rw [List.map_map]
        refine List.map_congr_left fun s _ => ?_
        by_cases h : shardAt fk.1 fk.2 s
        · rcases shardAt_iff.mp h with ⟨h1, h2⟩
          have hmem : (s.form, s.key) ∈ fk :: ks := by
            rw [h1, h2]
            exact List.mem_cons_self fk ks
          have hnmem : (s.form, s.key) ∉ ks := by
            rw [h1, h2]
            exact hfk
          simp only [Function.comp, updShard, if_pos h, if_neg hnmem,
            if_pos hmem]
          simp [h1, h2]
        · have hne : (s.form, s.key) ≠ fk := by
            intro hc
            exact h (shardAt_iff.mpr
              ⟨congrArg Prod.fst hc, congrArg Prod.snd hc⟩)
          simp only [Function.comp, if_neg h, updShard, List.mem_cons]
          by_cases hmem : (s.form, s.key) ∈ ks
          · simp [hmem, hne]
          · simp [hmem, hne]
      · -- the new files are unchanged, and fk creates none
        have hself : newShards t cands (fk :: ks) = newShards t cands ks := by
          rw [newShards, newShards, List.filter_cons, if_neg (by simp [hex])]
        rw [hself, newShards, newShards]
        have hany : ∀ fk' : String × String,
            (t.map fun s =>
              if shardAt fk.1 fk.2 s then
                { s with rows := s.rows ++ candidatesFor cands fk.1 fk.2,
                         readable := true, hasOrgnr := true }
              else s).any (shardAt fk'.1 fk'.2)
            = t.any (shardAt fk'.1 fk'.2) := by
          intro fk'
          rw [List.any_map]
          refine congrArg (List.any t) (funext fun s => ?_)
          simp only [Function.comp_apply]
          by_cases h : shardAt fk.1 fk.2 s = true
          · rw [if_pos h]
            rfl
          · rw [if_neg h]
        refine congrArg _ (List.filter_congr fun fk' _ => ?_)
        rw [hany]
    · -- no file yet: the write appends a fresh one
      have hw : writeShard t fk.1 fk.2 (candidatesFor cands fk.1 fk.2)
          = t ++ [mkShard cands fk] := by
        rw [writeShard, if_neg hex]
        rfl
      have hfkt : (fk.1, fk.2) ∉ treeKeys t := fun hc =>
        hex (any_shardAt_iff.mpr hc)
      have ht' : (treeKeys (t ++ [mkShard cands fk])).Nodup := by
        rw [treeKeys, List.map_append, ← treeKeys]
        rw [List.nodup_append]
        refine ⟨ht, List.nodup_singleton _, ?_⟩
        intro p hp hp'
        simp only [List.map_cons, List.map_nil, List.mem_singleton] at hp'
        subst hp'
        exact hfkt hp
      rw [hw, ih _ hks' ht']
      rw [List.map_append]
      have hupd : updShard cands ks (mkShard cands fk) = mkShard cands fk := by
        rw [updShard, if_neg]
        simpa [mkShard] using hfk
      have hnew : newShards (t ++ [mkShard cands fk]) cands ks
          = newShards t cands ks := by
        rw [newShards, newShards]
        refine congrArg _ (List.filter_congr fun fk' hfk' => ?_)
        have hne : fk' ≠ fk := fun hc => hfk (hc ▸ hfk')
        rw [List.any_append]
        have hone : ([mkShard cands fk] : List Shard).any
            (shardAt fk'.1 fk'.2) = false := by
          simp only [List.any_cons, List.any_nil, Bool.or_false]
          rw [Bool.eq_false_iff]
          intro hc
          rcases shardAt_iff.mp hc with ⟨h1, h2⟩
          exact hne (Prod.ext h1.symm h2.symm)
        rw [hone, Bool.or_false]
      have hmapcongr : t.map (updShard cands (fk :: ks))
          = t.map (updShard cands ks) := by
        refine List.map_congr_left fun s hs => ?_
        have hne : (s.form, s.key) ≠ fk := by
          intro hc
          exact hfkt (hc ▸ List.mem_map_of_mem _ hs)
        rw [updShard, updShard]
        by_cases hmem : (s.form, s.key) ∈ ks
        · rw [if_pos hmem, if_pos (List.mem_cons_of_mem _ hmem)]
        · rw [if_neg hmem, if_neg (by
            intro hc
            rcases List.mem_cons.mp hc with h | h
            · exact hne h
            · exact hmem h)]
      have hnewcons : newShards t cands (fk :: ks)
          = mkShard cands fk :: newShards t cands ks := by
        rw [newShards, newShards, List.filter_cons, if_pos (by simp [hex])]
        rfl
      simp only [List.map_cons, List.map_nil]
      rw [hupd, hnew, hmapcongr, hnewcons]
      simp

/-- The write loop, characterised: existing files get their group appended
in place, and a fresh file is created for every touched key without one. -/
theorem mergeWrites_eq {t : List Shard} {cands : List Row}
    (ht : (treeKeys t).Nodup) :
    mergeWrites t cands
      = t.map (updShard cands (touchedKeys cands))
          ++ newShards t cands (touchedKeys cands) :=
  foldWrites_eq cands (touchedKeys cands) t (nodup_touchedKeys cands) ht

theorem findShard_eq_none_iff {t : List Shard} {f k : String} :
    findShard t f k = none ↔ (f, k) ∉ treeKeys t := by
  rw [findShard, List.find?_eq_none]
  constructor
  · intro h hc
    rcases List.mem_map.mp hc with ⟨s, hs, hsk⟩
    exact h s hs (shardAt_iff.mpr
      ⟨congrArg Prod.fst hsk, congrArg Prod.snd hsk⟩)
  · intro h s hs hsat
    rcases shardAt_iff.mp hsat with ⟨h1, h2⟩
    exact h (List.mem_map.mpr ⟨s, hs, by rw [h1, h2]⟩)

theorem findShard_map_updShard {t : List Shard} {cands : List Row}
    {ks : List (String × String)} {f k : String} :
    findShard (t.map (updShard cands ks)) f k
      = (findShard t f k).map (updShard cands ks) := by
  rw [findShard, List.find?_map, findShard]
  have hp : (shardAt f k ∘ updShard cands ks) = shardAt f k := by
    refine funext fun s => ?_
    simp only [Function.comp_apply, shardAt, updShard_form, updShard_key]
  rw [hp]

theorem find?_pairKey (f k : String) :
    ∀ L : List (String × String),
      L.find? (shardAt f k ∘ mkShard cands)
        = if (f, k) ∈ L then some (f, k) else none := by
  intro L
  induction L with
  | nil => simp
  | cons a L ih =>
    by_cases ha : a = (f, k)
    · subst ha
      rw [List.find?_cons_of_pos _ (by simp [Function.comp, mkShard, shardAt])]
      simp
    · rw [List.find?_cons_of_neg _ (by
        simp only [Function.comp_apply, mkShard, shardAt]
        intro hc
        rcases Bool.and_eq_true .. |>.mp hc with ⟨h1, h2⟩
        exact ha (Prod.ext (by simpa using h1) (by simpa using h2)))]
      rw [ih]
      by_cases hm : (f, k) ∈ L
      · rw [if_pos hm, if_pos (List.mem_cons_of_mem _ hm)]
      · rw [if_neg hm, if_neg (by
          intro hc
          rcases List.mem_cons.mp hc with hc | hc
          · exact ha hc.symm
          · exact hm hc)]

theorem findShard_newShards {t : List Shard} {cands : List Row}
    {ks : List (String × String)} {f k : String} :
    findShard (newShards t cands ks) f k
      = if (f, k) ∈ ks ∧ (f, k) ∉ treeKeys t
        then some (mkShard cands (f, k)) else none := by
  rw [newShards, findShard, List.find?_map, find?_pairKey f k]
  by_cases hm : (f, k) ∈ ks ∧ (f, k) ∉ treeKeys t
  · have hmem : (f, k) ∈ ks.filter fun fk => !(t.any (shardAt fk.1 fk.2)) := by
      refine List.mem_filter.mpr ⟨hm.1, ?_⟩
      simp only [Bool.not_eq_true']
      exact Bool.eq_false_iff.mpr fun hc => hm.2 (any_shardAt_iff.mp hc)
    rw [if_pos hmem, if_pos hm]
    rfl
  · have hnot : (f, k) ∉ ks.filter fun fk => !(t.any (shardAt fk.1 fk.2)) := by
      intro hc
      rcases List.mem_filter.mp hc with ⟨h1, h2⟩
      simp only [Bool.not_eq_true'] at h2
      refine hm ⟨h1, fun hc' => ?_⟩
      rw [any_shardAt_iff.mpr hc'] at h2
      exact absurd h2 (by simp)
    rw [if_neg hnot, if_neg hm]
    rfl

/-- Looking up any file after the write loop: an existing file has its
group appended (with the file freshly written), a touched key without a
file gets a fresh file with exactly its group, and everything else is
untouched. -/
theorem findShard_mergeWrites {t : List Shard} {cands : List Row}
    {f k : String} (ht : (treeKeys t).Nodup) :
    findShard (mergeWrites t cands) f k
      = match findShard t f k with
        | some s => some (updShard cands (touchedKeys cands) s)
        | none =>
          if (f, k) ∈ touchedKeys cands
          then some (mkShard cands (f, k)) else none := by
  rw [mergeWrites_eq ht, findShard, List.find?_append, ← findShard,
    ← findShard, findShard_map_updShard, findShard_newShards]
  rcases hfs : findShard t f k with _ | s
  · have hnk : (f, k) ∉ treeKeys t := findShard_eq_none_iff.mp hfs
    show (if (f, k) ∈ touchedKeys cands ∧ (f, k) ∉ treeKeys t
          then some (mkShard cands (f, k)) else none)
        = if (f, k) ∈ touchedKeys cands
          then some (mkShard cands (f, k)) else none
    by_cases hm : (f, k) ∈ touchedKeys cands
    · rw [if_pos ⟨hm, hnk⟩, if_pos hm]
    · rw [if_neg fun hc => hm hc.1, if_neg hm]
  · rfl

/-! ## Helper lemmas: the candidate set -/

theorem mem_candidates {d : DataFrame} {t : List Shard} {r : Row} :
    r ∈ candidates d t ↔
      r ∈ survivingRows d ∧
        r.orgnr ∉ load_all_existing_organisation_numbers t := by
  simp [candidates, List.mem_filter]

theorem candidates_fresh {d : DataFrame} {t : List Shard} {r : Row}
    (hwf : TreeWF t) (hr : r ∈ candidates d t) :
    ∀ s ∈ t, r.orgnr ∉ shardNums s := by
  intro s hs hn
  exact (mem_candidates.mp hr).2
    (mem_load.mpr ⟨s, hs, (hwf.2 s hs).1, (hwf.2 s hs).2, hn⟩)

theorem sublist_candidates_rows {d : DataFrame} {t : List Shard} :
    (candidates d t).Sublist (d.rows.map cleanRow) := by
  refine List.Sublist.trans (List.filter_sublist _) ?_
  rw [survivingRows]
  by_cases h : d.cols.contains "konkurs"
  · rw [if_pos h]
    exact List.filter_sublist _
  · rw [if_neg h]

theorem nodup_candidates_orgnr {d : DataFrame} {t : List Shard}
    (h : (d.rows.map RawRow.orgnr).Nodup) :
    ((candidates d t).map Row.orgnr).Nodup := by
  have h1 : ((d.rows.map cleanRow).map Row.orgnr) = d.rows.map RawRow.orgnr := by
    rw [List.map_map]
    rfl
  exact List.Nodup.sublist
    (List.Sublist.map Row.orgnr sublist_candidates_rows) (h1 ▸ h)

theorem eq_of_mem_of_nodup_map {α β : Type} {f : α → β} {l : List α}
    {a b : α} (h : (l.map f).Nodup) (ha : a ∈ l) (hb : b ∈ l)
    (hab : f a = f b) : a = b :=
  (List.nodup_map_iff_inj_on (List.Nodup.of_map f h)).mp h a ha b hb hab

theorem mem_shardNums_updShard {cands : List Row}
    {ks : List (String × String)} {s : Shard} {n : String}
    (hks : ks = touchedKeys cands) :
    (n ∈ shardNums (updShard cands ks s) ↔
      n ∈ shardNums s ∨
        n ∈ (candidatesFor cands s.form s.key).map Row.orgnr) := by
  by_cases h : (s.form, s.key) ∈ ks
  · rw [updShard, if_pos h]
    simp [shardNums, List.mem_append]
  · rw [updShard, if_neg h,
      candidatesFor_eq_nil_of_not_touched (hks ▸ h)]
    simp

theorem mem_group_nums {cands : List Row} {f k n : String} :
    n ∈ (candidatesFor cands f k).map Row.orgnr ↔
      ∃ c ∈ cands, c.orgnr = n ∧ c.form = f ∧ bucketOf c = k := by
  simp only [List.mem_map, mem_candidatesFor]
  constructor
  · rintro ⟨c, ⟨hc, hf, hk⟩, rfl⟩
    exact ⟨c, hc, rfl, hf, hk⟩
  · rintro ⟨c, hc, rfl, hf, hk⟩
    exact ⟨c, ⟨hc, hf, hk⟩, rfl⟩

theorem contains_iff_mem {α : Type} [BEq α] [LawfulBEq α]
    {l : List α} {n : α} : l.contains n = true ↔ n ∈ l := by
  simp

theorem countP_beq_le_one {α : Type} [BEq α] [LawfulBEq α] {l : List α}
    (h : l.Nodup) (a : α) : l.countP (fun x => x == a) ≤ 1 := by
  induction l with
  | nil => simp
  | cons x xs ih =>
    rcases List.nodup_cons.mp h with ⟨hx, hxs⟩
    rw [List.countP_cons]
    by_cases hxa : (x == a) = true
    · have hxa' : x = a := eq_of_beq hxa
      subst hxa'
      have hz : xs.countP (fun y => y == x) = 0 := by
        rw [List.countP_eq_zero]
        intro y hy hxy
        exact hx (eq_of_beq hxy ▸ hy)
      simp [hz]
    · have := ih hxs
      rw [if_neg hxa]
      omega

/-- The write loop preserves global uniqueness: if every registry number
lies in at most one file, no candidate number is already in the tree, and
the candidate numbers are themselves distinct, the same holds after. -/
theorem atMostOne_mergeWrites {t : List Shard} {cands : List Row}
    (hwf : TreeWF t) (huniq : atMostOneShard t)
    (hnodup : (cands.map Row.orgnr).Nodup)
    (hnew : ∀ c ∈ cands, ∀ s ∈ t, c.orgnr ∉ shardNums s) :
    atMostOneShard (mergeWrites t cands) := by
  intro n
  rw [mergeWrites_eq hwf.1, List.countP_append]
  by_cases hex : ∃ c ∈ cands, c.orgnr = n
  · rcases hex with ⟨c₀, hc₀, hn₀⟩
    have hold : ∀ s ∈ t, n ∉ shardNums s := fun s hs hn' =>
      hnew c₀ hc₀ s hs (hn₀ ▸ hn')
    have hkey : ∀ f k, (n ∈ (candidatesFor cands f k).map Row.orgnr) ↔
        f = c₀.form ∧ k = bucketOf c₀ := by
      intro f k
      rw [mem_group_nums]
      constructor
      · rintro ⟨c, hc, hcn, rfl, rfl⟩
        have hcc : c = c₀ :=
          eq_of_mem_of_nodup_map hnodup hc hc₀ (by rw [hcn, hn₀])
        subst hcc
        exact ⟨rfl, rfl⟩
      · rintro ⟨rfl, rfl⟩
        exact ⟨c₀, hc₀, hn₀, rfl, rfl⟩
    have h1 : (t.map (updShard cands (touchedKeys cands))).countP
        (fun s => (shardNums s).contains n)
        = t.countP (fun s => (s.form, s.key) == (c₀.form, bucketOf c₀)) := by
      rw [List.countP_map]
      refine List.countP_congr fun s hs => ?_
      rw [Function.comp_apply, contains_iff_mem,
        mem_shardNums_updShard rfl, hkey, beq_iff_eq, Prod.ext_iff]
      constructor
      · rintro (h | ⟨h1', h2'⟩)
        · exact absurd h (hold s hs)
        · exact ⟨h1', h2'⟩
      · intro hb
        exact Or.inr hb
    have h1b : t.countP (fun s => (s.form, s.key) == (c₀.form, bucketOf c₀))
        = (treeKeys t).countP (fun p => p == (c₀.form, bucketOf c₀)) := by
      rw [treeKeys, List.countP_map]
      rfl
    have h2 : (newShards t cands (touchedKeys cands)).countP
        (fun s => (shardNums s).contains n)
        = ((touchedKeys cands).filter
            fun fk => !(t.any (shardAt fk.1 fk.2))).countP
          (fun fk => fk == (c₀.form, bucketOf c₀)) := by
      rw [newShards, List.countP_map]
      refine List.countP_congr fun fk hfk => ?_
      rw [Function.comp_apply, contains_iff_mem]
      show n ∈ shardNums (mkShard cands fk) ↔ _
      rw [show shardNums (mkShard cands fk)
          = (candidatesFor cands fk.1 fk.2).map Row.orgnr from rfl, hkey,
        beq_iff_eq, Prod.ext_iff]
    rw [h1, h1b, h2]
    by_cases hfk₀ : (c₀.form, bucketOf c₀) ∈ treeKeys t
    · have hz : ((touchedKeys cands).filter
          fun fk => !(t.any (shardAt fk.1 fk.2))).countP
            (fun fk => fk == (c₀.form, bucketOf c₀)) = 0 := by
        rw [List.countP_eq_zero]
        intro fk hfk hc
        have : fk = (c₀.form, bucketOf c₀) := beq_iff_eq.mp hc
        subst this
        rcases List.mem_filter.mp hfk with ⟨_, h2'⟩
        simp only [Bool.not_eq_true'] at h2'
        rw [any_shardAt_iff.mpr hfk₀] at h2'
        exact absurd h2' (by simp)
      rw [hz]
      have := countP_beq_le_one hwf.1 (c₀.form, bucketOf c₀)
      omega
    · have hz : (treeKeys t).countP
          (fun p => p == (c₀.form, bucketOf c₀)) = 0 := by
        rw [List.countP_eq_zero]
        intro p hp hc
        exact hfk₀ (eq_of_beq hc ▸ hp)
      rw [hz]
      have hle : ((touchedKeys cands).filter
          fun fk => !(t.any (shardAt fk.1 fk.2))).countP
            (fun fk => fk == (c₀.form, bucketOf c₀))
          ≤ (touchedKeys cands).countP
            (fun fk => fk == (c₀.form, bucketOf c₀)) :=
        (List.filter_sublist _).countP_le _
      have := countP_beq_le_one (nodup_touchedKeys cands)
        (c₀.form, bucketOf c₀)
      omega
  · have hgroups : ∀ f k, n ∉ (candidatesFor cands f k).map Row.orgnr := by
      intro f k hc
      rcases mem_group_nums.mp hc with ⟨c, hc', hcn, _, _⟩
      exact hex ⟨c, hc', hcn⟩
    have h1 : (t.map (updShard cands (touchedKeys cands))).countP
        (fun s => (shardNums s).contains n)
        = t.countP (fun s => (shardNums s).contains n) := by
      rw [List.countP_map]
      refine List.countP_congr fun s hs => ?_
      rw [Function.comp_apply, contains_iff_mem,
        mem_shardNums_updShard rfl, contains_iff_mem]
      constructor
      · rintro (h | h)
        · exact h
        · exact absurd h (hgroups _ _)
      · exact Or.inl
    have h2 : (newShards t cands (touchedKeys cands)).countP
        (fun s => (shardNums s).contains n) = 0 := by
      rw [List.countP_eq_zero]
      intro s hs hc
      rcases List.mem_map.mp hs with ⟨fk, _, rfl⟩
      exact hgroups fk.1 fk.2 (contains_iff_mem.mp hc)
    rw [h1, h2]
    have := huniq n
    omega

/-- After the write loop, every number of the old tree and every candidate
number is found by a fresh scan of the tree. -/
theorem load_after_mergeWrites {t : List Shard} (cands : List Row)
    (hwf : TreeWF t) :
    (∀ s ∈ t, ∀ n, n ∈ shardNums s →
        n ∈ load_all_existing_organisation_numbers (mergeWrites t cands)) ∧
    (∀ c ∈ cands,
        c.orgnr ∈ load_all_existing_organisation_numbers (mergeWrites t cands))
    := by
  constructor
  · intro s hs n hn
    refine mem_load.mpr ⟨updShard cands (touchedKeys cands) s, ?_, ?_, ?_, ?_⟩
    · rw [mergeWrites_eq hwf.1]
      exact List.mem_append_left _ (List.mem_map_of_mem _ hs)
    · by_cases h : (s.form, s.key) ∈ touchedKeys cands
      · rw [updShard, if_pos h]
      · rw [updShard, if_neg h]
        exact (hwf.2 s hs).1
    · by_cases h : (s.form, s.key) ∈ touchedKeys cands
      · rw [updShard, if_pos h]
      · rw [updShard, if_neg h]
        exact (hwf.2 s hs).2
    · rw [mem_shardNums_updShard rfl]
      exact Or.inl hn
  · intro c hc
    have hfk : (c.form, bucketOf c) ∈ touchedKeys cands :=
      mem_touchedKeys.mpr ⟨c, hc, rfl, rfl⟩
    by_cases hmem : (c.form, bucketOf c) ∈ treeKeys t
    · rcases List.mem_map.mp hmem with ⟨s, hs, hkeyp⟩
      have hf1 : s.form = c.form := congrArg Prod.fst hkeyp
      have hf2 : s.key = bucketOf c := congrArg Prod.snd hkeyp
      have hks : (s.form, s.key) ∈ touchedKeys cands := by
        rw [hf1, hf2]
        exact hfk
      refine mem_load.mpr ⟨updShard cands (touchedKeys cands) s, ?_, ?_, ?_, ?_⟩
      · rw [mergeWrites_eq hwf.1]
        exact List.mem_append_left _ (List.mem_map_of_mem _ hs)
      · rw [updShard, if_pos hks]
      · rw [updShard, if_pos hks]
      · rw [mem_shardNums_updShard rfl]
        refine Or.inr (mem_group_nums.mpr ⟨c, hc, rfl, hf1.symm, hf2.symm⟩)
    · refine mem_load.mpr ⟨mkShard cands (c.form, bucketOf c), ?_, rfl, rfl, ?_⟩
      · rw [mergeWrites_eq hwf.1]
        refine List.mem_append_right _ ?_
        rw [newShards]
        refine List.mem_map_of_mem _ (List.mem_filter.mpr ⟨hfk, ?_⟩)
        simp only [Bool.not_eq_true']
        exact Bool.eq_false_iff.mpr fun hcx => hmem (any_shardAt_iff.mp hcx)
      · exact mem_group_nums.mpr ⟨c, hc, rfl, rfl, rfl⟩

/-- Destructuring a successful Merger run into its two branches. -/
theorem merge_ok_elim {d : DataFrame} {t : List Shard} {r : MergeResult}
    (h : merge_new_companies_into_existing_structure d t = Except.ok r) :
    (mergeRequiredColumns.filter fun c => !(d.cols.contains c)) = [] ∧
    ((candidates d t = [] ∧ r = MergeResult.mk t true 0) ∨
     (candidates d t ≠ [] ∧
      r = MergeResult.mk (mergeWrites t (candidates d t)) false
        ((touchedKeys (candidates d t)).map fun fk =>
          (candidatesFor (candidates d t) fk.1 fk.2).length).sum)) := by
  simp only [merge_new_companies_into_existing_structure] at h
  split at h
  case isTrue hm =>
    refine ⟨List.isEmpty_iff.mp hm, ?_⟩
    split at h
    case isTrue hc =>
      exact Or.inl ⟨List.isEmpty_iff.mp hc, (Except.ok.inj h).symm⟩
    case isFalse hc =>
      refine Or.inr ⟨?_, (Except.ok.inj h).symm⟩
      intro hnil
      exact hc (by rw [hnil]; rfl)
  case isFalse hm =>
    exact absurd h (by simp)

/-- A key is touched exactly when its candidate group is nonempty. -/
theorem touched_iff_group_ne_nil {cands : List Row} {f k : String} :
    (f, k) ∈ touchedKeys cands ↔ candidatesFor cands f k ≠ [] := by
  constructor
  · intro h hnil
    rcases mem_touchedKeys.mp h with ⟨c, hc, hf, hk⟩
    have : c ∈ candidatesFor cands f k := mem_candidatesFor.mpr ⟨hc, hf, hk⟩
    rw [hnil] at this
    exact absurd this (List.not_mem_nil c)
  · intro h
    by_contra hc
    exact h (candidatesFor_eq_nil_of_not_touched hc)

/-! ## Claim theorems: the Merger -/

/-- C1: Merge dedup preserves global uniqueness.  For a tree as the
Partitioner and Merger themselves produce it (`TreeWF`: one readable file
per key, each bearing the registry-number column) in which every registry
number lies in at most one shard file, and a dump whose registry numbers
are pairwise distinct (the registry number is the registry's unique key),
a successful Merger run (a) selects only candidate rows whose registry
number lies in no existing shard file — even when the organisation form or
shard key in the dump differs from where the number already lives; (b)
writes nothing except old rows kept in place and candidate rows; (c) keeps
every previously present registry number present; and (d) leaves every
registry number in at most one shard file of the tree. -/
theorem merge_dedup_preserves_global_uniqueness
    (d : DataFrame) (t : List Shard) (r : MergeResult)
    (hwf : TreeWF t) (huniq : atMostOneShard t)
    (hnodup : (d.rows.map RawRow.orgnr).Nodup)
    (hrun : merge_new_companies_into_existing_structure d t = Except.ok r) :
    (∀ c ∈ candidates d t, ∀ s ∈ t, c.orgnr ∉ shardNums s) ∧
    (∀ s ∈ r.tree, ∀ row ∈ s.rows,
      (∃ s₀ ∈ t, s₀.form = s.form ∧ s₀.key = s.key ∧ row ∈ s₀.rows) ∨
        row ∈ candidates d t) ∧
    (∀ n : String,
      (∃ s ∈ t, n ∈ shardNums s) → ∃ s ∈ r.tree, n ∈ shardNums s) ∧
    atMostOneShard r.tree := by
  have hfresh : ∀ c ∈ candidates d t, ∀ s ∈ t, c.orgnr ∉ shardNums s :=
    fun c hc => candidates_fresh hwf hc
  rcases merge_ok_elim hrun with ⟨_, hbr⟩
  rcases hbr with ⟨hcand, hr⟩ | ⟨hcand, hr⟩
  · have htree : r.tree = t := by rw [hr]
    refine ⟨hfresh, ?_, ?_, ?_⟩
    · intro s hs row hrow
      rw [htree] at hs
      exact Or.inl ⟨s, hs, rfl, rfl, hrow⟩
    · rintro n ⟨s, hs, hn⟩
      rw [htree]
      exact ⟨s, hs, hn⟩
    · rw [htree]
      exact huniq
  · have htree : r.tree = mergeWrites t (candidates d t) := by rw [hr]
    refine ⟨hfresh, ?_, ?_, ?_⟩
    · intro s hs row hrow
      rw [htree, mergeWrites_eq hwf.1] at hs
      rcases List.mem_append.mp hs with hs | hs
      · rcases List.mem_map.mp hs with ⟨s₀, hs₀, rfl⟩
        rw [updShard_rows] at hrow
        by_cases hk : (s₀.form, s₀.key) ∈ touchedKeys (candidates d t)
        · rw [if_pos hk] at hrow
          rcases List.mem_append.mp hrow with h | h
          · exact Or.inl ⟨s₀, hs₀, (updShard_form _ _ _).symm,
              (updShard_key _ _ _).symm, h⟩
          · exact Or.inr (mem_candidatesFor.mp h).1
        · rw [if_neg hk] at hrow
          exact Or.inl ⟨s₀, hs₀, (updShard_form _ _ _).symm,
            (updShard_key _ _ _).symm, hrow⟩
      · rcases List.mem_map.mp hs with ⟨fk, _, rfl⟩
        exact Or.inr (mem_candidatesFor.mp hrow).1
    · rintro n ⟨s, hs, hn⟩
      have h3 := (load_after_mergeWrites (candidates d t) hwf).1 s hs n hn
      rcases mem_load.mp h3 with ⟨s', hs', _, _, hn'⟩
      rw [htree]
      exact ⟨s', hs', hn'⟩
    · rw [htree]
      exact atMostOne_mergeWrites hwf huniq (nodup_candidates_orgnr hnodup)
        hfresh

/-- C2: Merger idempotence.  Re-running the Merger with the same dump on
the tree a successful run produced finds every surviving dump row already
present, takes the "No new companies to merge!" early return, adds zero
rows and leaves the tree exactly as it was after the first run. -/
theorem merger_idempotent
    (d : DataFrame) (t : List Shard) (r : MergeResult)
    (hwf : TreeWF t)
    (hrun : merge_new_companies_into_existing_structure d t = Except.ok r) :
    merge_new_companies_into_existing_structure d r.tree
      = Except.ok (MergeResult.mk r.tree true 0) := by
  rcases merge_ok_elim hrun with ⟨hmiss, hbr⟩
  have hcand2 : candidates d r.tree = [] := by
    rw [candidates, List.filter_eq_nil_iff]
    intro rr hrr
    simp only [Bool.not_eq_true', Bool.not_eq_false]
    refine contains_iff_mem.mpr ?_
    rcases hbr with ⟨hcand, hr⟩ | ⟨hcand, hr⟩
    · have htree : r.tree = t := by rw [hr]
      rw [htree]
      by_cases hin : rr.orgnr ∈ load_all_existing_organisation_numbers t
      · exact hin
      · exact absurd (mem_candidates.mpr ⟨hrr, hin⟩) (by rw [hcand]; simp)
    · have htree : r.tree = mergeWrites t (candidates d t) := by rw [hr]
      rw [htree]
      by_cases hin : rr.orgnr ∈ load_all_existing_organisation_numbers t
      · rcases mem_load.mp hin with ⟨s, hs, _, _, hn⟩
        exact (load_after_mergeWrites (candidates d t) hwf).1 s hs _ hn
      · exact (load_after_mergeWrites (candidates d t) hwf).2 rr
          (mem_candidates.mpr ⟨hrr, hin⟩)
  simp only [merge_new_companies_into_existing_structure]
  rw [if_pos (by rw [hmiss]; rfl), if_pos (by rw [hcand2]; rfl)]

/-- C5: Merger append semantics.  For each (organisation-form, shard-key)
with a nonempty candidate group, the run rewrites an existing target file
as its old rows in order followed by the group in dump order, or creates
the file holding exactly the group; a file whose group is empty is left
untouched.  (The tree is one file per key, and every file is readable —
the rewrite path re-reads the target file without a guard.) -/
theorem merger_append_semantics
    (d : DataFrame) (t : List Shard) (r : MergeResult) (f k : String)
    (hkeys : (treeKeys t).Nodup)
    (hread : ∀ s ∈ t, s.readable = true)
    (hrun : merge_new_companies_into_existing_structure d t = Except.ok r) :
    (candidatesFor (candidates d t) f k ≠ [] →
      (findShard r.tree f k).map Shard.rows
        = some ((findShard t f k).elim [] Shard.rows
            ++ candidatesFor (candidates d t) f k)) ∧
    (candidatesFor (candidates d t) f k = [] →
      findShard r.tree f k = findShard t f k) := by
  rcases merge_ok_elim hrun with ⟨_, hbr⟩
  rcases hbr with ⟨hcand, hr⟩ | ⟨hcand, hr⟩
  · have htree : r.tree = t := by rw [hr]
    constructor
    · intro hne
      rw [hcand] at hne
      exact absurd rfl hne
    · intro _
      rw [htree]
  · have htree : r.tree = mergeWrites t (candidates d t) := by rw [hr]
    rw [htree, findShard_mergeWrites hkeys]
    constructor
    · intro hne
      have hks : (f, k) ∈ touchedKeys (candidates d t) :=
        touched_iff_group_ne_nil.mpr hne
      rcases hfs : findShard t f k with _ | s
      · rw [if_pos hks]
        rfl
      · have hsat := List.find?_some hfs
        rcases shardAt_iff.mp hsat with ⟨h1, h2⟩
        show some (updShard (candidates d t) (touchedKeys (candidates d t))
          s).rows = _
        rw [updShard_rows, if_pos (by rw [h1, h2]; exact hks), h1, h2]
        rfl
    · intro hnil
      have hks : (f, k) ∉ touchedKeys (candidates d t) := fun hc =>
        (touched_iff_group_ne_nil.mp hc) hnil
      rcases hfs : findShard t f k with _ | s
      · rw [if_neg hks]
      · have hsat := List.find?_some hfs
        rcases shardAt_iff.mp hsat with ⟨h1, h2⟩
        show some (updShard (candidates d t) (touchedKeys (candidates d t))
          s) = some s
        rw [updShard, if_neg (by rw [h1, h2]; exact hks)]

/-- A one-file tree holding the company with registry number "1"
(`companies/AS/A.csv`), as in the spec's merge example. -/
def exampleTree : List Shard :=
  [{ form := "AS", key := "A", readable := true, hasOrgnr := true,
     rows := [{ orgnr := "1", form := "AS", navn := "Acme",
                konkurs := none }] }]

/-- The spec's merge example dump: number "1" reappears under another form
and name, number "3" is new. -/
def exampleDump : DataFrame :=
  { cols := ["organisasjonsform.kode", "navn", "organisasjonsnummer"]
    rows := [{ orgnr := "1", form := some "ENK", navn := some "Zeta",
               konkurs := none },
             { orgnr := "3", form := some "AS", navn := some "Bever",
               konkurs := none }] }

/-- The result of merging `exampleDump` into `exampleTree`. -/
def exampleRun : MergeResult :=
  MergeResult.mk (mergeWrites exampleTree (candidates exampleDump exampleTree))
    false
    ((touchedKeys (candidates exampleDump exampleTree)).map fun fk =>
      (candidatesFor (candidates exampleDump exampleTree) fk.1 fk.2).length).sum

/-- Witness for C1 at the spec's merge example. -/
theorem merge_dedup_preserves_global_uniqueness_witness :
    atMostOneShard exampleRun.tree := by
  have h := merge_dedup_preserves_global_uniqueness exampleDump exampleTree
    exampleRun ⟨by decide, by decide⟩
    (fun n => le_trans (List.countP_le_length _) (by decide))
    (by decide) rfl
  exact h.2.2.2

/-- Witness for C2 at the spec's merge example: the second run is the
"nothing to merge" no-op. -/
theorem merger_idempotent_witness :
    merge_new_companies_into_existing_structure exampleDump exampleRun.tree
      = Except.ok (MergeResult.mk exampleRun.tree true 0) :=
  merger_idempotent exampleDump exampleTree exampleRun
    ⟨by decide, by decide⟩ rfl

/-- Witness for C5 at the spec's merge example: the new company "3" lands
appended in a freshly created `companies/AS/B.csv`. -/
theorem merger_append_semantics_witness :
    (findShard exampleRun.tree "AS" "B").map Shard.rows
      = some ((findShard exampleTree "AS" "B").elim [] Shard.rows
          ++ candidatesFor (candidates exampleDump exampleTree) "AS" "B") := by
  have h := merger_append_semantics exampleDump exampleTree exampleRun
    "AS" "B" (by decide) (by decide) rfl
  exact h.1 (by decide)

/-! ## Helper lemmas: the Partitioner -/

theorem countP_flatMap {α β : Type} (g : α → List β) (p : β → Bool) :
    ∀ l : List α,
      (l.flatMap g).countP p = (l.map fun a => (g a).countP p).sum := by
  intro l
  induction l with
  | nil => simp
  | cons a as ih => simp [List.flatMap_cons, List.countP_append, ih]

theorem sum_map_single {α : Type} {g : α → Nat} (a₀ : α) (h1 : g a₀ = 1) :
    ∀ l : List α, l.Nodup → a₀ ∈ l → (∀ a ∈ l, a ≠ a₀ → g a = 0) →
      (l.map g).sum = 1 := by
  intro l
  induction l with
  | nil => intro _ hmem; cases hmem
  | cons x xs ih =>
    intro hnd hmem h0
    rcases List.nodup_cons.mp hnd with ⟨hx, hxs⟩
    rcases List.mem_cons.mp hmem with rfl | hmem₂
    · simp only [List.map_cons, List.sum_cons, h1]
      have hz : (xs.map g).sum = 0 := by
        rw [List.sum_eq_zero]
        intro y hy
        rcases List.mem_map.mp hy with ⟨z, hz', rfl⟩
        exact h0 z (List.mem_cons_of_mem _ hz') fun hc => hx (hc ▸ hz')
      omega
    · have hxne : x ≠ a₀ := fun hc => hx (hc ▸ hmem₂)
      simp only [List.map_cons, List.sum_cons,
        h0 x (List.mem_cons_self x xs) hxne]
      have := ih hxs hmem₂ fun a ha hne => h0 a (List.mem_cons_of_mem _ ha) hne
      omega

theorem countP_pred_unique {α : Type} {p : α → Bool} (a₀ : α) :
    ∀ l : List α, l.Nodup → a₀ ∈ l → (∀ a ∈ l, (p a = true ↔ a = a₀)) →
      l.countP p = 1 := by
  intro l
  induction l with
  | nil => intro _ hmem; cases hmem
  | cons x xs ih =>
    intro hnd hmem hp
    rcases List.nodup_cons.mp hnd with ⟨hx, hxs⟩
    rw [List.countP_cons]
    rcases List.mem_cons.mp hmem with rfl | hmem₂
    · rw [if_pos ((hp a₀ (List.mem_cons_self a₀ xs)).mpr rfl)]
      have hz : xs.countP p = 0 := by
        rw [List.countP_eq_zero]
        intro a ha hpa
        exact hx ((hp a (List.mem_cons_of_mem _ ha)).mp hpa ▸ ha)
      omega
    · have hxne : x ≠ a₀ := fun hc => hx (hc ▸ hmem₂)
      rw [if_neg fun hc => hxne ((hp x (List.mem_cons_self x xs)).mp hc)]
      have := ih hxs hmem₂ fun a ha => hp a (List.mem_cons_of_mem _ ha)
      omega

theorem mem_rows_mkOutShard {d : DataFrame} {f k : String} {row : Row} :
    row ∈ (mkOutShard d f k).rows ↔
      row ∈ splitSurvivors d ∧ row.form = f ∧ bucketOf row = k := by
  simp only [mkOutShard, List.mem_filter, beq_iff_eq]
  tauto

theorem mem_splitterShards {d : DataFrame} {s : OutShard} :
    s ∈ splitterShards d ↔
      ∃ f k, s = mkOutShard d f k ∧
        ∃ r ∈ splitSurvivors d, r.form = f ∧ bucketOf r = k := by
  simp only [splitterShards, List.mem_flatMap, List.mem_map]
  constructor
  · rintro ⟨f, hf, k, hk, rfl⟩
    rcases List.mem_map.mp (mem_firstDedup.mp (mem_sortStrings.mp hk))
      with ⟨r, hr, rfl⟩
    rcases List.mem_filter.mp hr with ⟨hrs, hrf⟩
    exact ⟨f, bucketOf r, rfl, r, hrs, beq_iff_eq.mp hrf, rfl⟩
  · rintro ⟨f, k, rfl, r, hr, hf, hk⟩
    refine ⟨f, ?_, k, ?_, rfl⟩
    · exact mem_sortStrings.mpr (mem_firstDedup.mpr
        (List.mem_map.mpr ⟨r, hr, hf⟩))
    · exact mem_sortStrings.mpr (mem_firstDedup.mpr
        (List.mem_map.mpr ⟨r, List.mem_filter.mpr ⟨hr, beq_iff_eq.mpr hf⟩, hk⟩))

theorem cleanRow_mem_splitSurvivors {d : DataFrame} {rr : RawRow}
    (h : rr ∈ d.rows)
    (hallow : (cleanRow rr).form ∈ allowedOrganisationForms)
    (hkonk : d.cols.contains "konkurs" = true → rr.konkurs ≠ some true) :
    cleanRow rr ∈ splitSurvivors d := by
  have h1 : cleanRow rr ∈ (d.rows.map cleanRow).filter
      (fun r => allowedOrganisationForms.contains r.form) :=
    List.mem_filter.mpr ⟨List.mem_map_of_mem _ h, contains_iff_mem.mpr hallow⟩
  rw [splitSurvivors]
  by_cases hc : d.cols.contains "konkurs" = true
  · rw [if_pos hc]
    refine List.mem_filter.mpr ⟨h1, ?_⟩
    have : (cleanRow rr).konkurs = rr.konkurs := rfl
    simp [this, hkonk hc]
  · rw [if_neg hc]
    exact h1

/-! ## Claim theorems: the Partitioner -/

/-- C4 counterexample input: a dump whose single row has organisation form
"NUF", outside the hard-coded allow-list. -/
def nufRow : RawRow :=
  { orgnr := "1", form := some "NUF", navn := some "Acme", konkurs := none }

/-- The dump holding only `nufRow`. -/
def nufDump : DataFrame :=
  { cols := ["organisasjonsform.kode", "navn"], rows := [nufRow] }

/-- C4 counterexample: the claim "every row of the input dump appears in
exactly one output shard file" fails — the Partitioner's allow-list (ENK,
AS, FLI; line 87-91) silently drops this NUF row, and the run writes no
file containing it (here, no file at all). -/
theorem partition_placement_counterexample :
    nufRow ∈ nufDump.rows ∧
    split_brreg_dump_into_subdivided_csvs nufDump
      = Except.ok (splitterShards nufDump) ∧
    splitterShards nufDump = [] ∧
    (splitterShards nufDump).countP
      (fun s => s.rows.contains (cleanRow nufRow)) = 0 := by
  refine ⟨by decide, rfl, by decide, by decide⟩

/-- C4 (amended): every dump row whose cleaned organisation form is in the
allow-list {ENK, AS, FLI} and which is not dropped by the bankrupt filter
appears, after the Partitioner runs, in exactly one output shard file,
namely the one keyed by (its organisation-form code, bucket of its
name). -/
theorem partition_places_surviving_rows
    (d : DataFrame) (rr : RawRow)
    (hmem : rr ∈ d.rows)
    (hallow : (cleanRow rr).form ∈ allowedOrganisationForms)
    (hkonk : d.cols.contains "konkurs" = true → rr.konkurs ≠ some true) :
    (splitterShards d).countP
      (fun s => s.rows.contains (cleanRow rr)) = 1 ∧
    ∀ s ∈ splitterShards d, cleanRow rr ∈ s.rows →
      s.form = (cleanRow rr).form ∧ s.key = bucketOf (cleanRow rr) := by
  have hsurv : cleanRow rr ∈ splitSurvivors d :=
    cleanRow_mem_splitSurvivors hmem hallow hkonk
  constructor
  · rw [splitterShards, countP_flatMap]
    refine sum_map_single (cleanRow rr).form ?_ _
      (nodup_sortStrings (nodup_firstDedup _)) ?_ ?_
    · rw [List.countP_map]
      refine countP_pred_unique (bucketOf (cleanRow rr)) _
        (nodup_sortStrings (nodup_firstDedup _)) ?_ ?_
      · exact mem_sortStrings.mpr (mem_firstDedup.mpr (List.mem_map.mpr
          ⟨cleanRow rr,
           List.mem_filter.mpr ⟨hsurv, beq_iff_eq.mpr rfl⟩, rfl⟩))
      · intro k hk
        rw [Function.comp_apply, contains_iff_mem, mem_rows_mkOutShard]
        constructor
        · rintro ⟨_, _, hbk⟩
          exact hbk.symm
        · rintro rfl
          exact ⟨hsurv, rfl, rfl⟩
    · exact mem_sortStrings.mpr (mem_firstDedup.mpr
        (List.mem_map.mpr ⟨cleanRow rr, hsurv, rfl⟩))
    · intro f hf hne
      rw [List.countP_map, List.countP_eq_zero]
      intro k hk hc
      rw [Function.comp_apply, contains_iff_mem, mem_rows_mkOutShard] at hc
      exact hne (hc.2.1 ▸ rfl)
  · intro s hs hrow
    rcases mem_splitterShards.mp hs with ⟨f, k, rfl, _⟩
    rcases mem_rows_mkOutShard.mp hrow with ⟨_, hf, hk⟩
    exact ⟨hf.symm, hk.symm⟩

/-- Witness for C4 (amended) at the AS row of the example dump. -/
theorem partition_places_surviving_rows_witness :
    (splitterShards exampleDump).countP
      (fun s => s.rows.contains
        (cleanRow (RawRow.mk "3" (some "AS") (some "Bever") none))) = 1 := by
  have h := partition_places_surviving_rows exampleDump
    (RawRow.mk "3" (some "AS") (some "Bever") none)
    (by decide) (by decide) (fun hc => absurd hc (by decide))
  exact h.1

/-- C6 counterexample input: a dump carrying the optional `konkurs` column
and one AS row that survives the bankrupt filter. -/
def konkursDump : DataFrame :=
  { cols := ["organisasjonsform.kode", "navn", "konkurs"],
    rows := [{ orgnr := "7", form := some "AS", navn := some "Acme",
               konkurs := some false }] }

/-- C6 counterexample: the optional `konkurs` column, present in the input
dump, is not carried into the written shard file — only the whitelisted
output columns present in the dump survive (`available_columns`,
lines 102-115 and 152-159), here just `navn`. -/
theorem splitter_drops_konkurs_column :
    "konkurs" ∈ konkursDump.cols ∧
    splitterShards konkursDump = [mkOutShard konkursDump "AS" "A"] ∧
    (mkOutShard konkursDump "AS" "A").cols = ["navn"] ∧
    "konkurs" ∉ (mkOutShard konkursDump "AS" "A").cols := by
  refine ⟨by decide, by decide, by decide, by decide⟩

/-- C6 (amended): a written shard file carries exactly those columns of the
input dump that are in the fixed output whitelist — the eight base output
columns, plus `registrertIForetaksregisteret` for FLI shards only; other
input columns (`konkurs` among them) are dropped. -/
theorem splitter_carries_whitelisted_columns
    (d : DataFrame) (s : OutShard) (hs : s ∈ splitterShards d) :
    ∀ c : String,
      c ∈ s.cols ↔
        c ∈ d.cols ∧
          (c ∈ baseOutputColumns ∨
            (s.form = "FLI" ∧ c ∈ fliExtraColumns)) := by
  rcases mem_splitterShards.mp hs with ⟨f, k, rfl, _⟩
  intro c
  show c ∈ availableColumnsFor d f ↔ _
  rw [availableColumnsFor]
  by_cases hf : f = "FLI"
  · rw [if_pos hf]
    simp only [List.mem_filter, List.mem_append, contains_iff_mem]
    constructor
    · rintro ⟨h1 | h1, h2⟩
      · exact ⟨h2, Or.inl h1⟩
      · exact ⟨h2, Or.inr ⟨hf, h1⟩⟩
    · rintro ⟨h2, h1 | ⟨_, h1⟩⟩
      · exact ⟨Or.inl h1, h2⟩
      · exact ⟨Or.inr h1, h2⟩
  · rw [if_neg hf]
    simp only [List.mem_filter, contains_iff_mem]
    constructor
    · rintro ⟨h1, h2⟩
      exact ⟨h2, Or.inl h1⟩
    · rintro ⟨h2, h1 | ⟨hff, _⟩⟩
      · exact ⟨h1, h2⟩
      · exact absurd hff hf

/-- Witness for C6 (amended): `navn` is present in the dump and
whitelisted, and indeed carried into the written file. -/
theorem splitter_carries_whitelisted_columns_witness :
    "navn" ∈ (mkOutShard konkursDump "AS" "A").cols := by
  have h := splitter_carries_whitelisted_columns konkursDump
    (mkOutShard konkursDump "AS" "A") (by decide) "navn"
  exact h.mpr ⟨by decide, Or.inl (by decide)⟩

/-! ## Claim theorems: bucketing, error handling, the Reporter -/

/-- C3 (code defect): the bucketing function does not send every name whose
first character is outside the ASCII letters to "OTHER", contradicting its
own docstring ("OTHER for numbers, non-ASCII, or empty names") and the
spec.  Python uppercases 'ß' to "SS" — a two-character string that passes
the lexicographic test `'A' <= "SS" <= 'Z'` — and the non-ASCII dotless
'ı' to the ASCII letter "I", so these names land outside the documented
key set {A..Z, OTHER} or in a letter bucket instead of the overflow
bucket. -/
theorem get_letter_bucket_code_defect :
    get_letter_bucket_for_company_name (PyVal.str "ßen") = "SS" ∧
    get_letter_bucket_for_company_name (PyVal.str "ıstanbul") = "I" ∧
    "SS" ≠ "OTHER" ∧ "SS".length = 2 ∧ "I" ≠ "OTHER" ∧
    get_letter_bucket_for_company_name (PyVal.str "Acme") = "A" ∧
    get_letter_bucket_for_company_name (PyVal.str "zeta") = "Z" ∧
    get_letter_bucket_for_company_name (PyVal.str "Ørn") = "OTHER" ∧
    get_letter_bucket_for_company_name (PyVal.str "123 Co") = "OTHER" ∧
    get_letter_bucket_for_company_name (PyVal.str "") = "OTHER" ∧
    get_letter_bucket_for_company_name PyVal.nonStr = "OTHER" := by
  refine ⟨rfl, rfl, by decide, by decide, by decide, rfl, rfl, rfl, rfl,
    rfl, rfl⟩

/-- C7: both scripts abort, with the list of missing columns as the
printed error, exactly when a required column is absent; with all required
columns present neither aborts on this check. -/
theorem missing_required_columns_abort (d : DataFrame) (t : List Shard) :
    ((∀ c ∈ splitRequiredColumns, c ∈ d.cols) →
      split_brreg_dump_into_subdivided_csvs d
        = Except.ok (splitterShards d)) ∧
    ((∃ c ∈ splitRequiredColumns, c ∉ d.cols) →
      split_brreg_dump_into_subdivided_csvs d
        = Except.error
            (splitRequiredColumns.filter fun c => !(d.cols.contains c)) ∧
      (splitRequiredColumns.filter fun c => !(d.cols.contains c)) ≠ [] ∧
      ∀ c, c ∈ (splitRequiredColumns.filter fun c => !(d.cols.contains c)) ↔
        (c ∈ splitRequiredColumns ∧ c ∉ d.cols)) ∧
    ((∀ c ∈ mergeRequiredColumns, c ∈ d.cols) →
      ∃ r, merge_new_companies_into_existing_structure d t
        = Except.ok r) ∧
    ((∃ c ∈ mergeRequiredColumns, c ∉ d.cols) →
      merge_new_companies_into_existing_structure d t
        = Except.error
            (mergeRequiredColumns.filter fun c => !(d.cols.contains c)) ∧
      (mergeRequiredColumns.filter fun c => !(d.cols.contains c)) ≠ [] ∧
      ∀ c, c ∈ (mergeRequiredColumns.filter fun c => !(d.cols.contains c)) ↔
        (c ∈ mergeRequiredColumns ∧ c ∉ d.cols)) := by
  have hmemiff : ∀ (req : List String) (c : String),
      c ∈ (req.filter fun c => !(d.cols.contains c)) ↔
        (c ∈ req ∧ c ∉ d.cols) := by
    intro req c
    rw [List.mem_filter]
    constructor
    · rintro ⟨h1, h2⟩
      simp only [Bool.not_eq_true'] at h2
      exact ⟨h1, fun hc => by
        rw [contains_iff_mem.mpr hc] at h2
        exact absurd h2 (by simp)⟩
    · rintro ⟨h1, h2⟩
      refine ⟨h1, ?_⟩
      simp only [Bool.not_eq_true']
      exact Bool.eq_false_iff.mpr fun hc => h2 (contains_iff_mem.mp hc)
  have hnil : ∀ req : List String, (∀ c ∈ req, c ∈ d.cols) →
      (req.filter fun c => !(d.cols.contains c)) = [] := by
    intro req hall
    rw [List.filter_eq_nil_iff]
    intro c hc
    simp [hall c hc]
  have hnotnil : ∀ req : List String, (∃ c ∈ req, c ∉ d.cols) →
      (req.filter fun c => !(d.cols.contains c)) ≠ [] := by
    rintro req ⟨c₀, hc₀, hnc₀⟩ h
    rw [List.filter_eq_nil_iff] at h
    exact h c₀ hc₀ (by
      simp only [Bool.not_eq_true']
      exact Bool.eq_false_iff.mpr fun hc => hnc₀ (contains_iff_mem.mp hc))
  refine ⟨?_, ?_, ?_, ?_⟩
  · intro hall
    simp only [split_brreg_dump_into_subdivided_csvs]
    rw [if_pos (by rw [hnil _ hall]; rfl)]
  · intro hex
    have hne := hnotnil _ hex
    refine ⟨?_, hne, hmemiff _⟩
    simp only [split_brreg_dump_into_subdivided_csvs]
    rw [if_neg fun h => hne (List.isEmpty_iff.mp h)]
  · intro hall
    simp only [merge_new_companies_into_existing_structure]
    rw [if_pos (by rw [hnil _ hall]; rfl)]
    by_cases hc : (candidates d t).isEmpty = true
    · rw [if_pos hc]
      exact ⟨_, rfl⟩
    · rw [if_neg hc]
      exact ⟨_, rfl⟩
  · intro hex
    have hne := hnotnil _ hex
    refine ⟨?_, hne, hmemiff _⟩
    simp only [merge_new_companies_into_existing_structure]
    rw [if_neg fun h => hne (List.isEmpty_iff.mp h)]

/-- Witness for C7: the Merger on a dump missing `navn` and
`organisasjonsnummer` reports exactly those two missing columns. -/
theorem missing_required_columns_abort_witness :
    merge_new_companies_into_existing_structure
        (DataFrame.mk ["organisasjonsform.kode"] []) []
      = Except.error ["navn", "organisasjonsnummer"] := by
  have h := (missing_required_columns_abort
    (DataFrame.mk ["organisasjonsform.kode"] []) []).2.2.2
    ⟨"navn", by decide, by decide⟩
  rw [h.1]
  rfl

theorem natSum_eq_zero_iff :
    ∀ l : List Nat, l.sum = 0 ↔ ∀ x ∈ l, x = 0 := by
  intro l
  induction l with
  | nil => simp
  | cons x xs ih => simp [List.sum_cons, ih, Nat.add_eq_zero]

/-- The Merger errors exactly with the (nonempty) missing-column list; in
particular, no property of the tree can make it abort. -/
theorem merge_error_iff {d : DataFrame} {t : List Shard} {m : List String} :
    merge_new_companies_into_existing_structure d t = Except.error m ↔
      ((mergeRequiredColumns.filter fun c => !(d.cols.contains c)) = m ∧
        m ≠ []) := by
  simp only [merge_new_companies_into_existing_structure]
  by_cases hm : (mergeRequiredColumns.filter
      fun c => !(d.cols.contains c)).isEmpty = true
  · rw [if_pos hm]
    constructor
    · intro h
      by_cases hc : (candidates d t).isEmpty = true
      · rw [if_pos hc] at h
        exact absurd h (by simp)
      · rw [if_neg hc] at h
        exact absurd h (by simp)
    · rintro ⟨rfl, hne⟩
      exact absurd (List.isEmpty_iff.mp hm) hne
  · rw [if_neg hm]
    constructor
    · intro h
      have := Except.error.inj h
      refine ⟨this, ?_⟩
      rw [← this]
      intro hc
      exact hm (by rw [hc]; rfl)
    · rintro ⟨rfl, _⟩
      rfl

/-- C8: a shard file that cannot be read is skipped, not fatal: removing
an unreadable file from the tree changes neither the Merger's
existing-number scan nor the Reporter's per-form total, counted-file count,
top list, or crash behaviour, and the Merger aborts on the tree with the
unreadable file exactly when it aborts without it. -/
theorem per_file_read_errors_skipped
    (d : DataFrame) (t₁ t₂ : List Shard) (bad : Shard)
    (hbad : bad.readable = false) :
    (load_all_existing_organisation_numbers (t₁ ++ bad :: t₂)
      = load_all_existing_organisation_numbers (t₁ ++ t₂)) ∧
    ((statisticsForForm (t₁ ++ bad :: t₂)).map
        (fun st => (st.total, st.countedFiles, st.top))
      = (statisticsForForm (t₁ ++ t₂)).map
        (fun st => (st.total, st.countedFiles, st.top))) ∧
    (∀ m, merge_new_companies_into_existing_structure d (t₁ ++ bad :: t₂)
        = Except.error m ↔
      merge_new_companies_into_existing_structure d (t₁ ++ t₂)
        = Except.error m) := by
  refine ⟨?_, ?_, ?_⟩
  · rw [load_all_existing_organisation_numbers,
      load_all_existing_organisation_numbers,
      List.foldl_append, List.foldl_append, List.foldl_cons]
    congr 1
    rw [hbad]
    simp
  · have hfil : (t₁ ++ bad :: t₂).filter (fun s => s.readable)
        = (t₁ ++ t₂).filter (fun s => s.readable) := by
      simp [List.filter_append, List.filter_cons, hbad]
    simp only [statisticsForForm, hfil]
    split
    · rfl
    · rfl
  · intro m
    rw [merge_error_iff, merge_error_iff]

/-- Witness for C8: a concrete two-file tree where the unreadable file's
number "9" is invisible to the scan, and the Reporter counts only the
readable file. -/
theorem per_file_read_errors_skipped_witness :
    load_all_existing_organisation_numbers
        ([{ form := "AS", key := "A", readable := true, hasOrgnr := true,
            rows := [{ orgnr := "1", form := "AS", navn := "Acme",
                       konkurs := none }] }]
          ++ { form := "AS", key := "B", readable := false, hasOrgnr := true,
               rows := [{ orgnr := "9", form := "AS", navn := "Bad",
                          konkurs := none }] } :: [])
      = load_all_existing_organisation_numbers
          [{ form := "AS", key := "A", readable := true, hasOrgnr := true,
             rows := [{ orgnr := "1", form := "AS", navn := "Acme",
                        konkurs := none }] }] := by
  have h := per_file_read_errors_skipped (DataFrame.mk [] [])
    [{ form := "AS", key := "A", readable := true, hasOrgnr := true,
       rows := [{ orgnr := "1", form := "AS", navn := "Acme",
                  konkurs := none }] }]
    []
    { form := "AS", key := "B", readable := false, hasOrgnr := true,
      rows := [{ orgnr := "9", form := "AS", navn := "Bad",
                 konkurs := none }] }
    rfl
  exact h.1

/-- The Reporter example of the spec: shard counts {A:10, B:5, OTHER:2}. -/
def statsFilesAS : List Shard :=
  [{ form := "AS", key := "A", readable := true, hasOrgnr := true,
     rows := List.replicate 10
       { orgnr := "x", form := "AS", navn := "Alpha", konkurs := none } },
   { form := "AS", key := "B", readable := true, hasOrgnr := true,
     rows := List.replicate 5
       { orgnr := "x", form := "AS", navn := "Beta", konkurs := none } },
   { form := "AS", key := "OTHER", readable := true, hasOrgnr := true,
     rows := List.replicate 2
       { orgnr := "x", form := "AS", navn := "1st", konkurs := none } }]

/-- A second organisation-form directory, for the grand total. -/
def statsFilesENK : List Shard :=
  [{ form := "ENK", key := "A", readable := true, hasOrgnr := true,
     rows := List.replicate 10
       { orgnr := "y", form := "ENK", navn := "Ask", konkurs := none } }]

/-- C9: the Reporter sums the row counts of the readable files of a form
to the per-form total; it shows at most five buckets, and all of them when
fewer than five files were readable; per-form totals accumulate into the
grand total.  On the spec's example {A:10, B:5, OTHER:2} it reports
total 17 across 3 files with A at 58.8%, B at 29.4% and OTHER at 11.8%
(percentages in tenths), and two such forms accumulate to a grand total of
27 companies in 4 counted files. -/
theorem reporter_aggregation :
    (∀ (files : List Shard) (st : FormStats),
      statisticsForForm files = some st →
        st.total = ((files.filter fun s => s.readable).map
          fun s => s.rows.length).sum ∧
        st.top.length ≤ 5 ∧
        ((files.filter fun s => s.readable).length ≤ 5 →
          st.top.length = (files.filter fun s => s.readable).length)) ∧
    statisticsForForm statsFilesAS
      = some (FormStats.mk 17 3 3
          [("A", 10, 588), ("B", 5, 294), ("OTHER", 2, 118)]) ∧
    display_company_database_statistics
        [("AS", statsFilesAS), ("ENK", statsFilesENK)]
      = some (27, 4) := by
  refine ⟨?_, by decide, by decide⟩
  intro files st h
  simp only [statisticsForForm] at h
  split at h
  · exact absurd h (by simp)
  · have hst := Option.some.inj h
    subst hst
    refine ⟨?_, ?_, ?_⟩
    · show ((((files.filter fun s => s.readable).map
        fun s => (s.key, s.rows.length)).map fun p => p.2)).sum = _
      rw [List.map_map]
      rfl
    · show ((((sortOrdered _ _).take 5).map _)).length ≤ 5
      rw [List.length_map, List.length_take]
      exact min_le_left _ _
    · intro hle
      show ((((sortOrdered _ _).take 5).map _)).length = _
      rw [List.length_map, List.length_take,
        (perm_sortOrdered _ _).length_eq, List.length_map]
      exact Nat.min_eq_right hle

/-- Witness for C9: the general part applied to the spec's example form. -/
theorem reporter_aggregation_witness :
    (17 : Nat) = ((statsFilesAS.filter fun s => s.readable).map
      fun s => s.rows.length).sum := by
  have h := reporter_aggregation.1 statsFilesAS
    (FormStats.mk 17 3 3 [("A", 10, 588), ("B", 5, 294), ("OTHER", 2, 118)])
    (by decide)
  exact h.1

/-- C10: the Reporter's percentage division is unguarded.  For any form
directory, the per-form pass raises an unhandled `ZeroDivisionError`
(modelled as `none`) exactly when at least one shard file is readable but
every readable shard file is empty (zero form total); in particular a
single readable empty file crashes the Reporter. -/
theorem reporter_unguarded_percentage_division (files : List Shard) :
    (statisticsForForm files = none ↔
      ((files.filter fun s => s.readable) ≠ [] ∧
        ∀ s ∈ files, s.readable = true → s.rows.length = 0)) ∧
    statisticsForForm
        [{ form := "AS", key := "A", readable := true, hasOrgnr := true,
           rows := [] }]
      = none := by
  refine ⟨?_, by decide⟩
  rw [statisticsForForm]
  have htot : ((((files.filter fun s => s.readable).map
      fun s => (s.key, s.rows.length)).map fun p => p.2)).sum = 0 ↔
      ∀ s ∈ files, s.readable = true → s.rows.length = 0 := by
    rw [natSum_eq_zero_iff]
    constructor
    · intro h s hs hr
      exact h s.rows.length (List.mem_map.mpr
        ⟨(s.key, s.rows.length),
         List.mem_map.mpr ⟨s, List.mem_filter.mpr ⟨hs, hr⟩, rfl⟩, rfl⟩)
    · intro h x hx
      rcases List.mem_map.mp hx with ⟨p, hp, rfl⟩
      rcases List.mem_map.mp hp with ⟨s, hs, rfl⟩
      rcases List.mem_filter.mp hs with ⟨hs', hr⟩
      exact h s hs' hr
  have htop : ((sortOrdered (fun a b => b.2 ≤ a.2)
      ((files.filter fun s => s.readable).map
        fun s => (s.key, s.rows.length))).take 5 ≠ []) ↔
      (files.filter fun s => s.readable) ≠ [] := by
    rw [ne_eq, List.take_eq_nil_iff, not_or]
    constructor
    · rintro ⟨_, h⟩ hc
      exact h (by
        have := (perm_sortOrdered (fun a b => b.2 ≤ a.2)
          ((files.filter fun s => s.readable).map
            fun s => (s.key, s.rows.length))).length_eq
        rw [← List.length_eq_zero, this, List.length_map, hc]
        rfl)
    · intro h
      refine ⟨by decide, fun hc => h ?_⟩
      have := (perm_sortOrdered (fun a b => b.2 ≤ a.2)
        ((files.filter fun s => s.readable).map
          fun s => (s.key, s.rows.length))).length_eq
      rw [← List.length_eq_zero] at hc ⊢
      rw [hc, List.length_map] at this
      exact this.symm
  split
  case isTrue hcond =>
    simp only [true_iff]
    exact ⟨htop.mp hcond.2, htot.mp hcond.1⟩
  case isFalse hcond =>
    constructor
    · intro h
      exact absurd h (by simp)
    · intro hrhs
      exact absurd ⟨htot.mpr hrhs.2, htop.mpr hrhs.1⟩ hcond

/-- Witness for C10: a directory with one readable empty shard file makes
the percentage loop divide by zero. -/
theorem reporter_unguarded_percentage_division_witness :
    statisticsForForm
        [{ form := "ENK", key := "B", readable := true, hasOrgnr := true,
           rows := [] }]
      = none := by
  have h := (reporter_unguarded_percentage_division
    [{ form := "ENK", key := "B", readable := true, hasOrgnr := true,
       rows := [] }]).1
  exact h.mpr ⟨by decide, by decide⟩
